import Mathlib

/-!
Verification of the variant-to-presentation resolver of the ds-ai design
system library, and of its ButtonComponent reference implementation.

The resolver (`resolve`) maps a component's declared configuration
(variant axes + boolean flags + interaction state) to a presentation
descriptor (class tokens + ARIA attribute map).
-/

namespace DsAi

/-- The five mutually exclusive interaction states of a component
(`disabled` pre-empts all others). -/
inductive InteractionState where
  | rest
  | hover
  | focus
  | active
  | disabled
deriving DecidableEq, BEq

/-- One configuration axis of a component: its name, its enumerated set of
allowed values, and an optional declared default. -/
structure Axis where
  name : String
  values : List String
  default : Option String
deriving DecidableEq

/-- Modelled from the spec: the VariantSpec data model (the resolver itself
is not present in the repository sources, only described). A VariantSpec is
the closed, ordered list of recognized configuration axes of one component
kind. -/
structure VariantSpec where
  axes : List Axis
deriving DecidableEq

/-- Modelled from the spec: caller-supplied configuration values — an
association list from axis name to chosen value, plus the independent
boolean flags `disabled` and `loading`. -/
structure ConfigValues where
  values : List (String × String)
  disabled : Bool := false
  loading : Bool := false
deriving DecidableEq

/-- Modelled from the spec: the resolver's output — class tokens in a
deterministic order without duplicates, and an ARIA attribute map. -/
structure PresentationDescriptor where
  classes : List String
  aria : List (String × String)
deriving DecidableEq

/-- The two failure conditions of the resolver: a supplied value outside an
axis's enumerated domain, or an axis with neither a supplied value nor a
declared default. -/
inductive ResolveError where
  | invalidVariantValue
  | missingAxis
deriving DecidableEq

/-- First binding of a key in an association list. -/
def lookupCfg (cfg : List (String × String)) (n : String) : Option String :=
  match cfg with
  | [] => none
  | (k, v) :: rest => if k = n then some v else lookupCfg rest n

/-- Modelled from the spec: input validation — every caller-supplied value
for a declared axis must lie in that axis's enumerated domain, otherwise
`InvalidVariantValue`. -/
def validateAxes (axes : List Axis) (cfg : List (String × String)) :
    Except ResolveError Unit :=
  match axes with
  | [] => .ok ()
  | a :: rest =>
    match lookupCfg cfg a.name with
    | none => validateAxes rest cfg
    | some v => if v ∈ a.values then validateAxes rest cfg
                else .error .invalidVariantValue

/-- Modelled from the spec: the value one axis resolves to — the
caller-supplied value when present, else the axis's declared default. -/
def axisValue (a : Axis) (cfg : List (String × String)) : Option String :=
  match lookupCfg cfg a.name with
  | some v => some v
  | none => a.default

/-- Modelled from the spec: per-axis value resolution in declared order —
take the supplied value, else the declared default, else fail with
`MissingAxis`. Returns (axis name, resolved value) pairs in the order the
axes were declared. -/
def fillAxes (axes : List Axis) (cfg : List (String × String)) :
    Except ResolveError (List (String × String)) :=
  match axes with
  | [] => .ok []
  | a :: rest =>
    match axisValue a cfg with
    | none => .error .missingAxis
    | some v =>
      match fillAxes rest cfg with
      | .error e => .error e
      | .ok tail => .ok ((a.name, v) :: tail)

/-- Modelled from the spec: axis resolution — validate all supplied values,
then resolve every axis to supplied-or-default. -/
def resolveAxes (spec : VariantSpec) (cfg : List (String × String)) :
    Except ResolveError (List (String × String)) :=
  match validateAxes spec.axes cfg with
  | .error e => .error e
  | .ok _ => fillAxes spec.axes cfg

/-- Name of an interaction state as used inside class tokens. -/
def stateName : InteractionState → String
  | .rest => "rest"
  | .hover => "hover"
  | .focus => "focus"
  | .active => "active"
  | .disabled => "disabled"

/-- Modelled from the spec: a state-specific class token is always scoped
to (qualified by) the resolved hierarchy value. -/
def stateToken (hier : String) (s : InteractionState) : String :=
  hier ++ "-" ++ stateName s

/-- Whether the disabled condition holds: the interaction state is
`disabled` or the config's `disabled` flag is set. -/
def effectiveDisabled (cfg : ConfigValues) (st : InteractionState) : Bool :=
  cfg.disabled || st == .disabled

/-- The resolved hierarchy value of a list of resolved axis values. -/
def hierValue (vals : List (String × String)) : String :=
  (lookupCfg vals "hierarchy").getD ""

/-- Modelled from the spec: the interaction-state tokens emitted — when
disabled holds, only the disabled token for the resolved hierarchy;
otherwise the state token scoped to the resolved hierarchy (none at
rest). -/
def interactionTokens (hier : String) (cfg : ConfigValues)
    (st : InteractionState) : List String :=
  if effectiveDisabled cfg st then [stateToken hier .disabled]
  else
    match st with
    | .rest => []
    | s => [stateToken hier s]

/-- Modelled from the spec: the fixed ARIA table keyed by flag/state —
`disabled → aria-disabled`, `loading → aria-busy`; an attribute is emitted
only when its triggering condition holds. -/
def ariaAttrs (cfg : ConfigValues) (st : InteractionState) :
    List (String × String) :=
  (if effectiveDisabled cfg st then [("aria-disabled", "true")] else [])
    ++ (if cfg.loading then [("aria-busy", "true")] else [])

/-- Duplicate removal keeping the first occurrence, with an accumulator of
tokens already seen. -/
def dedupAux (l : List String) (seen : List String) : List String :=
  match l with
  | [] => []
  | x :: xs => if x ∈ seen then dedupAux xs seen else x :: dedupAux xs (x :: seen)

/-- Duplicate removal keeping the first occurrence. -/
def dedupFirst (l : List String) : List String := dedupAux l []

/-- Modelled from the spec: the variant resolver. Validates the
configuration against the spec, resolves every axis (supplied value or
declared default), composes the base class tokens in declared axis order,
appends the interaction-state token scoped to the resolved hierarchy
(disabled pre-empting hover/focus/active), and populates the ARIA
attribute map. Fails closed with `InvalidVariantValue` or `MissingAxis`. -/
def resolve (spec : VariantSpec) (cfg : ConfigValues) (st : InteractionState) :
    Except ResolveError PresentationDescriptor :=
  match resolveAxes spec cfg.values with
  | .error e => .error e
  | .ok vals =>
    .ok { classes := dedupFirst (vals.map Prod.snd
                       ++ interactionTokens (hierValue vals) cfg st)
          aria := ariaAttrs cfg st }

/-- The hierarchy axis of the Button component:
`hierarchy ∈ {primary, secondary}`, default `primary`. -/
def hierarchyAxis : Axis :=
  { name := "hierarchy", values := ["primary", "secondary"],
    default := some "primary" }

/-- The size axis of the Button component: `size ∈ {sm, md}`,
default `md`. -/
def sizeAxis : Axis :=
  { name := "size", values := ["sm", "md"], default := some "md" }

/-- The Button component's variant spec from the scenario:
`{hierarchy: [primary, secondary], size: [sm, md]}` with defaults
`{hierarchy: primary, size: md}`. -/
def buttonSpec : VariantSpec := { axes := [hierarchyAxis, sizeAxis] }

/-- An axis with no declared default, for exercising the `MissingAxis`
failure condition. -/
def toneAxis : Axis := { name := "tone", values := ["light", "dark"], default := none }

/-- A variant spec declaring a single axis that has no default. -/
def toneSpec : VariantSpec := { axes := [toneAxis] }

/-- A string is not an interaction-state token (hover, focus or active,
scoped to any hierarchy). -/
def NotStateTokenStr (v : String) : Prop :=
  ∀ h, v ≠ stateToken h .hover ∧ v ≠ stateToken h .focus ∧
    v ≠ stateToken h .active

/-- Well-formedness of a VariantSpec per the data model: no enumerated axis
value or declared default is itself an interaction-state token (the data
model's "no free-form strings reach presentation logic"). -/
def SpecWF (spec : VariantSpec) : Prop :=
  ∀ ax ∈ spec.axes,
    (∀ v ∈ ax.values, NotStateTokenStr v) ∧
    (∀ v, ax.default = some v → NotStateTokenStr v)

/-- The ButtonComponent of the reference implementation in
.github/copilot-instructions.md: its inputs are `hierarchy`
(default "primary") and `disabled` (default false). -/
structure ButtonComponent where
  hierarchy : String := "primary"
  disabled : Bool := false
deriving DecidableEq

/-- The class list computed by the component. The reference implementation
elides the body of getClasses; modelled here from the repository's tests
(the button's class list contains the hierarchy class). Its exact content
is irrelevant to the theorems below. -/
def getClasses (c : ButtonComponent) : List String := [c.hierarchy]

/-- A rendered button element: its class list and its reflected
attributes. -/
structure DomButton where
  classes : List String
  attrs : List (String × String)
deriving DecidableEq

/-- The ButtonComponent template binds exactly `[ngClass]` (the computed
classes) and `[attr.aria-disabled]` (the `disabled` input) on the button
element; no other attribute — in particular not the native `disabled`
attribute — is bound. An Angular `[attr.X]` binding of a boolean reflects
it as the string "true" or "false". -/
def renderButton (c : ButtonComponent) : DomButton :=
  { classes := getClasses c
    attrs := [("aria-disabled", if c.disabled then "true" else "false")] }

/-- Native DOM semantics: a button element fires its click event (and the
component emits `buttonClick`) unless the native `disabled` attribute is
present on the element. -/
def clickFires (b : DomButton) : Bool :=
  !(lookupCfg b.attrs "disabled").isSome

/-! ### Helper lemmas about strings and tokens -/

theorem str_append_right_cancel {a b c : String} (h : a ++ c = b ++ c) :
    a = b := by
  apply String.ext
  have hd : a.data ++ c.data = b.data ++ c.data := by
    rw [← String.data_append, ← String.data_append, h]
  exact List.append_cancel_right hd

theorem getLast_stateToken (h : String) (s : InteractionState) :
    (stateToken h s).data.getLast? = (stateName s).data.getLast? := by
  have hne : (stateName s).data ≠ [] := by cases s <;> simp [stateName]
  simp only [stateToken, String.data_append]
  exact List.getLast?_append_of_ne_nil _ hne

theorem notStateToken_of_getLast (v : String)
    (hr : v.data.getLast? ≠ some 'r') (hs : v.data.getLast? ≠ some 's')
    (he : v.data.getLast? ≠ some 'e') : NotStateTokenStr v := by
  refine fun h => ⟨fun heq => ?_, fun heq => ?_, fun heq => ?_⟩
  · exact hr (heq ▸ getLast_stateToken h .hover)
  · exact hs (heq ▸ getLast_stateToken h .focus)
  · exact he (heq ▸ getLast_stateToken h .active)

theorem disabledToken_notStateToken (hier : String) :
    NotStateTokenStr (stateToken hier .disabled) := by
  have h := getLast_stateToken hier .disabled
  refine notStateToken_of_getLast _ ?_ ?_ ?_ <;> rw [h] <;> decide

theorem buttonSpecWF : SpecWF buttonSpec := by
  have hp : NotStateTokenStr "primary" :=
    notStateToken_of_getLast _ (by decide) (by decide) (by decide)
  have hsec : NotStateTokenStr "secondary" :=
    notStateToken_of_getLast _ (by decide) (by decide) (by decide)
  have hsm : NotStateTokenStr "sm" :=
    notStateToken_of_getLast _ (by decide) (by decide) (by decide)
  have hmd : NotStateTokenStr "md" :=
    notStateToken_of_getLast _ (by decide) (by decide) (by decide)
  intro ax hax
  simp only [buttonSpec, List.mem_cons, List.not_mem_nil, or_false] at hax
  rcases hax with rfl | rfl
  · refine ⟨fun v hv => ?_, fun v hv => ?_⟩
    · simp only [hierarchyAxis, List.mem_cons, List.not_mem_nil,
        or_false] at hv
      rcases hv with rfl | rfl
      · exact hp
      · exact hsec
    · simp only [hierarchyAxis, Option.some.injEq] at hv
      exact hv ▸ hp
  · refine ⟨fun v hv => ?_, fun v hv => ?_⟩
    · simp only [sizeAxis, List.mem_cons, List.not_mem_nil, or_false] at hv
      rcases hv with rfl | rfl
      · exact hsm
      · exact hmd
    · simp only [sizeAxis, Option.some.injEq] at hv
      exact hv ▸ hmd

/-! ### Helper lemmas about duplicate removal -/

theorem dedupAux_mem (l : List String) :
    ∀ seen y, y ∈ dedupAux l seen ↔ y ∈ l ∧ y ∉ seen := by
  induction l with
  | nil => intro seen y; simp [dedupAux]
  | cons x xs ih =>
    intro seen y
    by_cases hx : x ∈ seen
    · simp only [dedupAux, if_pos hx, ih, List.mem_cons]
      constructor
      · rintro ⟨hy, hns⟩; exact ⟨Or.inr hy, hns⟩
      · rintro ⟨hy | hy, hns⟩
        · exact absurd (hy ▸ hx) hns
        · exact ⟨hy, hns⟩
    · simp only [dedupAux, if_neg hx, List.mem_cons, ih]
      constructor
      · rintro (rfl | ⟨hy, hns⟩)
        · exact ⟨Or.inl rfl, hx⟩
        · refine ⟨Or.inr hy, fun hc => hns (Or.inr hc)⟩
      · rintro ⟨rfl | hy, hns⟩
        · exact Or.inl rfl
        · by_cases hyx : y = x
          · exact Or.inl hyx
          · exact Or.inr ⟨hy, by simp [List.mem_cons, hyx, hns]⟩

theorem dedupFirst_mem (l : List String) (y : String) :
    y ∈ dedupFirst l ↔ y ∈ l := by
  simp [dedupFirst, dedupAux_mem]

theorem dedupAux_nodup (l : List String) :
    ∀ seen, (dedupAux l seen).Nodup := by
  induction l with
  | nil => intro seen; simp [dedupAux]
  | cons x xs ih =>
    intro seen
    by_cases hx : x ∈ seen
    · simpa [dedupAux, if_pos hx] using ih seen
    · simp only [dedupAux, if_neg hx]
      refine List.Nodup.cons ?_ (ih (x :: seen))
      intro hc
      exact ((dedupAux_mem xs (x :: seen) x).mp hc).2 (List.mem_cons_self x seen)

theorem dedupFirst_nodup (l : List String) : (dedupFirst l).Nodup :=
  dedupAux_nodup l []

/-! ### Inversion lemmas about the resolver -/

theorem validateAxes_ok_or_invalid (axes : List Axis)
    (cfg : List (String × String)) :
    validateAxes axes cfg = .ok () ∨
      validateAxes axes cfg = .error .invalidVariantValue := by
  induction axes with
  | nil => exact Or.inl rfl
  | cons a rest ih =>
    simp only [validateAxes]
    cases hl : lookupCfg cfg a.name with
    | none => exact ih
    | some v =>
      by_cases hv : v ∈ a.values
      · simpa [if_pos hv] using ih
      · simp [if_neg hv]

theorem validateAxes_ne_ok_of_invalid {axes : List Axis}
    {cfg : List (String × String)} {a : Axis} {v : String}
    (ha : a ∈ axes) (hsup : lookupCfg cfg a.name = some v)
    (hinv : v ∉ a.values) : validateAxes axes cfg ≠ .ok () := by
  induction axes with
  | nil => cases ha
  | cons x rest ih =>
    rcases List.mem_cons.mp ha with rfl | hmem
    · simp [validateAxes, hsup, if_neg hinv]
    · simp only [validateAxes]
      cases hl : lookupCfg cfg x.name with
      | none => exact ih hmem
      | some w =>
        by_cases hw : w ∈ x.values
        · simpa [if_pos hw] using ih hmem
        · simp [if_neg hw]

theorem validateAxes_ok_mem {axes : List Axis}
    {cfg : List (String × String)} {a : Axis} {v : String}
    (hok : validateAxes axes cfg = .ok ()) (ha : a ∈ axes)
    (hsup : lookupCfg cfg a.name = some v) : v ∈ a.values := by
  by_contra hinv
  exact validateAxes_ne_ok_of_invalid ha hsup hinv hok

theorem fillAxes_ok_mem {axes : List Axis} {cfg : List (String × String)}
    {vals : List (String × String)} (hok : fillAxes axes cfg = .ok vals) :
    ∀ p ∈ vals, ∃ ax ∈ axes, ax.name = p.1 ∧
      (lookupCfg cfg ax.name = some p.2 ∨
        (lookupCfg cfg ax.name = none ∧ ax.default = some p.2)) := by
  induction axes generalizing vals with
  | nil =>
    simp only [fillAxes, Except.ok.injEq] at hok
    subst hok; intro p hp; cases hp
  | cons a rest ih =>
    simp only [fillAxes] at hok
    cases hv : axisValue a cfg with
    | none => rw [hv] at hok; cases hok
    | some v =>
      rw [hv] at hok
      cases ht : fillAxes rest cfg with
      | error e => rw [ht] at hok; cases hok
      | ok tail =>
        rw [ht] at hok
        simp only [Except.ok.injEq] at hok
        subst hok
        intro p hp
        rcases List.mem_cons.mp hp with rfl | hmem
        · refine ⟨a, List.mem_cons_self a rest, rfl, ?_⟩
          simp only [axisValue] at hv
          cases hl : lookupCfg cfg a.name with
          | none => rw [hl] at hv; exact Or.inr ⟨rfl, hv⟩
          | some w =>
            rw [hl] at hv
            simp only [Option.some.injEq] at hv
            exact Or.inl (by rw [hv])
        · obtain ⟨ax, hax, hn, hval⟩ := ih ht p hmem
          exact ⟨ax, List.mem_cons_of_mem a hax, hn, hval⟩

theorem fillAxes_ok_names {axes : List Axis} {cfg : List (String × String)}
    {vals : List (String × String)} (hok : fillAxes axes cfg = .ok vals) :
    vals.map Prod.fst = axes.map Axis.name := by
  induction axes generalizing vals with
  | nil =>
    simp only [fillAxes, Except.ok.injEq] at hok
    subst hok; rfl
  | cons a rest ih =>
    simp only [fillAxes] at hok
    cases hv : axisValue a cfg with
    | none => rw [hv] at hok; cases hok
    | some v =>
      rw [hv] at hok
      cases ht : fillAxes rest cfg with
      | error e => rw [ht] at hok; cases hok
      | ok tail =>
        rw [ht] at hok
        simp only [Except.ok.injEq] at hok
        subst hok
        simp [List.map_cons, ih ht]

theorem resolveAxes_ok_inv {spec : VariantSpec}
    {cfg : List (String × String)} {vals : List (String × String)}
    (hok : resolveAxes spec cfg = .ok vals) :
    validateAxes spec.axes cfg = .ok () ∧ fillAxes spec.axes cfg = .ok vals := by
  rcases validateAxes_ok_or_invalid spec.axes cfg with hv | hv
  · refine ⟨hv, ?_⟩
    simpa [resolveAxes, hv] using hok
  · rw [resolveAxes, hv] at hok; cases hok

theorem resolve_ok_inv {spec : VariantSpec} {cfg : ConfigValues}
    {st : InteractionState} {d : PresentationDescriptor}
    (hok : resolve spec cfg st = .ok d) :
    ∃ vals, resolveAxes spec cfg.values = .ok vals ∧
      d.classes = dedupFirst (vals.map Prod.snd
        ++ interactionTokens (hierValue vals) cfg st) ∧
      d.aria = ariaAttrs cfg st := by
  cases hr : resolveAxes spec cfg.values with
  | error e => rw [resolve, hr] at hok; cases hok
  | ok vals =>
    rw [resolve, hr] at hok
    simp only [Except.ok.injEq] at hok
    exact ⟨vals, rfl, by rw [← hok], by rw [← hok]⟩

theorem validateAxes_ok_of_valid {axes : List Axis}
    {cfg : List (String × String)}
    (h : ∀ ax ∈ axes, ∀ v, lookupCfg cfg ax.name = some v → v ∈ ax.values) :
    validateAxes axes cfg = .ok () := by
  induction axes with
  | nil => rfl
  | cons a rest ih =>
    simp only [validateAxes]
    cases hl : lookupCfg cfg a.name with
    | none => exact ih (fun ax hax v hv => h ax (List.mem_cons_of_mem a hax) v hv)
    | some v =>
      show (if v ∈ a.values then validateAxes rest cfg
            else Except.error ResolveError.invalidVariantValue) = Except.ok ()
      rw [if_pos (h a (List.mem_cons_self a rest) v hl)]
      exact ih (fun ax hax w hw => h ax (List.mem_cons_of_mem a hax) w hw)

theorem fillAxes_ok_of_total {axes : List Axis} {cfg : List (String × String)}
    (h : ∀ ax ∈ axes, (axisValue ax cfg).isSome) :
    ∃ vals, fillAxes axes cfg = .ok vals := by
  induction axes with
  | nil => exact ⟨[], rfl⟩
  | cons a rest ih =>
    obtain ⟨vals, hvals⟩ := ih (fun ax hax => h ax (List.mem_cons_of_mem a hax))
    have ha := h a (List.mem_cons_self a rest)
    cases hav : axisValue a cfg with
    | none => rw [hav] at ha; cases ha
    | some v => exact ⟨(a.name, v) :: vals, by simp [fillAxes, hav, hvals]⟩

theorem fillAxes_default_mem {axes : List Axis} {cfg : List (String × String)}
    {a : Axis} {dv : String} {vals : List (String × String)}
    (hok : fillAxes axes cfg = .ok vals) (ha : a ∈ axes)
    (hmiss : lookupCfg cfg a.name = none) (hd : a.default = some dv) :
    (a.name, dv) ∈ vals := by
  induction axes generalizing vals with
  | nil => cases ha
  | cons x rest ih =>
    simp only [fillAxes] at hok
    cases hv : axisValue x cfg with
    | none => rw [hv] at hok; cases hok
    | some v =>
      rw [hv] at hok
      cases ht : fillAxes rest cfg with
      | error e => rw [ht] at hok; cases hok
      | ok tail =>
        rw [ht] at hok
        simp only [Except.ok.injEq] at hok
        subst hok
        rcases List.mem_cons.mp ha with rfl | hmem
        · have hdv : axisValue a cfg = some dv := by
            simp [axisValue, hmiss, hd]
          rw [hv] at hdv
          simp only [Option.some.injEq] at hdv
          rw [hdv]
          exact List.mem_cons_self _ _
        · exact List.mem_cons_of_mem _ (ih ht hmem)

theorem fillAxes_ok_or_missing (axes : List Axis)
    (cfg : List (String × String)) :
    (∃ vals, fillAxes axes cfg = .ok vals) ∨
      fillAxes axes cfg = .error .missingAxis := by
  induction axes with
  | nil => exact Or.inl ⟨[], rfl⟩
  | cons a rest ih =>
    simp only [fillAxes]
    cases hav : axisValue a cfg with
    | none => exact Or.inr rfl
    | some v =>
      rcases ih with ⟨vals, hvals⟩ | herr
      · exact Or.inl ⟨(a.name, v) :: vals, by simp [hvals]⟩
      · rw [herr]; exact Or.inr rfl

theorem fillAxes_ne_ok_of_missing {axes : List Axis}
    {cfg : List (String × String)} {a : Axis}
    (ha : a ∈ axes) (hmiss : lookupCfg cfg a.name = none)
    (hnd : a.default = none) :
    ∀ vals, fillAxes axes cfg ≠ .ok vals := by
  induction axes with
  | nil => cases ha
  | cons x rest ih =>
    intro vals hok
    simp only [fillAxes] at hok
    rcases List.mem_cons.mp ha with rfl | hmem
    · have hav : axisValue a cfg = none := by simp [axisValue, hmiss, hnd]
      rw [hav] at hok
      cases hok
    · cases hav : axisValue x cfg with
      | none => rw [hav] at hok; cases hok
      | some v =>
        rw [hav] at hok
        cases ht : fillAxes rest cfg with
        | error e => rw [ht] at hok; cases hok
        | ok tail => exact ih hmem tail ht

/-! ### Congruence: the resolver reads the config only through lookups -/

theorem validateAxes_congr {axes : List Axis}
    {cfg1 cfg2 : List (String × String)}
    (h : ∀ ax ∈ axes, lookupCfg cfg1 ax.name = lookupCfg cfg2 ax.name) :
    validateAxes axes cfg1 = validateAxes axes cfg2 := by
  induction axes with
  | nil => rfl
  | cons a rest ih =>
    simp only [validateAxes]
    rw [h a (List.mem_cons_self a rest)]
    cases lookupCfg cfg2 a.name with
    | none => exact ih (fun ax hax => h ax (List.mem_cons_of_mem a hax))
    | some v =>
      show (if v ∈ a.values then validateAxes rest cfg1
            else Except.error ResolveError.invalidVariantValue) =
          (if v ∈ a.values then validateAxes rest cfg2
            else Except.error ResolveError.invalidVariantValue)
      by_cases hv : v ∈ a.values
      · rw [if_pos hv, if_pos hv]
        exact ih (fun ax hax => h ax (List.mem_cons_of_mem a hax))
      · rw [if_neg hv, if_neg hv]

theorem fillAxes_congr {axes : List Axis}
    {cfg1 cfg2 : List (String × String)}
    (h : ∀ ax ∈ axes, lookupCfg cfg1 ax.name = lookupCfg cfg2 ax.name) :
    fillAxes axes cfg1 = fillAxes axes cfg2 := by
  induction axes with
  | nil => rfl
  | cons a rest ih =>
    have hav : axisValue a cfg1 = axisValue a cfg2 := by
      simp [axisValue, h a (List.mem_cons_self a rest)]
    simp only [fillAxes]
    rw [hav, ih (fun ax hax => h ax (List.mem_cons_of_mem a hax))]

theorem effectiveDisabled_congr {cfg1 cfg2 : ConfigValues}
    {st : InteractionState} (h : cfg1.disabled = cfg2.disabled) :
    effectiveDisabled cfg1 st = effectiveDisabled cfg2 st := by
  simp [effectiveDisabled, h]

theorem interactionTokens_congr {hier : String} {cfg1 cfg2 : ConfigValues}
    {st : InteractionState} (h : cfg1.disabled = cfg2.disabled) :
    interactionTokens hier cfg1 st = interactionTokens hier cfg2 st := by
  simp only [interactionTokens, @effectiveDisabled_congr cfg1 cfg2 st h]

theorem ariaAttrs_congr {cfg1 cfg2 : ConfigValues} {st : InteractionState}
    (hd : cfg1.disabled = cfg2.disabled)
    (hl : cfg1.loading = cfg2.loading) :
    ariaAttrs cfg1 st = ariaAttrs cfg2 st := by
  simp only [ariaAttrs, @effectiveDisabled_congr cfg1 cfg2 st hd, hl]

/-! ### Claim theorems -/

/-- C1: whenever disabled holds (the interaction state is `disabled` or the
config's `disabled` flag is set), `resolve` emits no hover, focus or active
token for any hierarchy, sets `aria-disabled="true"`, and emits the
disabled-state token for the resolved hierarchy. -/
theorem disabled_preemption (spec : VariantSpec) (cfg : ConfigValues)
    (st : InteractionState) (d : PresentationDescriptor)
    (hwf : SpecWF spec) (hdis : effectiveDisabled cfg st = true)
    (hres : resolve spec cfg st = .ok d) :
    (∀ h s, (s = InteractionState.hover ∨ s = .focus ∨ s = .active) →
      stateToken h s ∉ d.classes) ∧
    ("aria-disabled", "true") ∈ d.aria ∧
    (∀ vals, resolveAxes spec cfg.values = .ok vals →
      stateToken (hierValue vals) .disabled ∈ d.classes) := by
  obtain ⟨vals, hra, hcls, haria⟩ := resolve_ok_inv hres
  obtain ⟨hvok, hfok⟩ := resolveAxes_ok_inv hra
  refine ⟨?_, ?_, ?_⟩
  · intro h s hs hmem
    rw [hcls, dedupFirst_mem] at hmem
    rcases List.mem_append.mp hmem with hbase | htok
    · obtain ⟨p, hp, hpv⟩ := List.mem_map.mp hbase
      obtain ⟨ax, haxmem, _, hvsrc⟩ := fillAxes_ok_mem hfok p hp
      have hnst : NotStateTokenStr p.2 := by
        rcases hvsrc with hsup | ⟨_, hdef⟩
        · exact (hwf ax haxmem).1 _ (validateAxes_ok_mem hvok haxmem hsup)
        · exact (hwf ax haxmem).2 _ hdef
      rcases hs with rfl | rfl | rfl
      · exact (hnst h).1 hpv
      · exact (hnst h).2.1 hpv
      · exact (hnst h).2.2 hpv
    · simp only [interactionTokens, hdis, if_true, List.mem_singleton] at htok
      have hnst := disabledToken_notStateToken (hierValue vals)
      rcases hs with rfl | rfl | rfl
      · exact (hnst h).1 htok.symm
      · exact (hnst h).2.1 htok.symm
      · exact (hnst h).2.2 htok.symm
  · rw [haria]
    simp [ariaAttrs, hdis]
  · intro vals2 hra2
    rw [hra] at hra2
    simp only [Except.ok.injEq] at hra2
    subst hra2
    rw [hcls, dedupFirst_mem]
    refine List.mem_append.mpr (Or.inr ?_)
    simp [interactionTokens, hdis]

theorem disabled_preemption_witness :
    stateToken "primary" .hover ∉
      (["primary", "md", "primary-disabled"] : List String) ∧
    ("aria-disabled", "true") ∈ [("aria-disabled", "true")] := by
  have h := disabled_preemption buttonSpec ⟨[], true, false⟩ .hover
    ⟨["primary", "md", "primary-disabled"], [("aria-disabled", "true")]⟩
    buttonSpecWF rfl rfl
  exact ⟨h.1 "primary" .hover (Or.inl rfl), h.2.1⟩

/-- C2: for distinct hierarchy values h1 ≠ h2 and any of the states hover,
focus and active, the state-specific class token under h1 never equals the
one under h2 for the same state, since the token is qualified by the
hierarchy. -/
theorem cross_variant_isolation (h1 h2 : String) (s : InteractionState)
    (hne : h1 ≠ h2)
    (_hs : s = InteractionState.hover ∨ s = .focus ∨ s = .active) :
    stateToken h1 s ≠ stateToken h2 s := by
  intro heq
  apply hne
  have h3 : (h1 ++ "-") ++ stateName s = (h2 ++ "-") ++ stateName s := heq
  exact str_append_right_cancel (str_append_right_cancel h3)

theorem cross_variant_isolation_witness :
    stateToken "primary" .hover ≠ stateToken "secondary" .hover :=
  cross_variant_isolation "primary" "secondary" .hover (by decide)
    (Or.inl rfl)

/-- C3: the resolver is deterministic — two invocations with identical
inputs yield identical descriptors (it is a pure function of its
arguments). -/
theorem resolve_deterministic (spec1 spec2 : VariantSpec)
    (cfg1 cfg2 : ConfigValues) (st1 st2 : InteractionState)
    (hspec : spec1 = spec2) (hcfg : cfg1 = cfg2) (hst : st1 = st2) :
    resolve spec1 cfg1 st1 = resolve spec2 cfg2 st2 := by
  subst hspec hcfg hst
  rfl

theorem resolve_deterministic_witness :
    resolve buttonSpec ⟨[], false, false⟩ .rest =
      resolve buttonSpec ⟨[], false, false⟩ .rest :=
  resolve_deterministic buttonSpec buttonSpec ⟨[], false, false⟩
    ⟨[], false, false⟩ .rest .rest rfl rfl rfl

/-- C4: an explicit value outside a declared axis's enumerated domain makes
`resolve` fail with `InvalidVariantValue`; the value is never silently
coerced to a default. -/
theorem invalid_value_rejected (spec : VariantSpec) (cfg : ConfigValues)
    (st : InteractionState) (a : Axis) (v : String)
    (ha : a ∈ spec.axes) (hsup : lookupCfg cfg.values a.name = some v)
    (hinv : v ∉ a.values) :
    resolve spec cfg st = .error .invalidVariantValue := by
  have hv : validateAxes spec.axes cfg.values = .error .invalidVariantValue := by
    rcases validateAxes_ok_or_invalid spec.axes cfg.values with h | h
    · exact absurd h (validateAxes_ne_ok_of_invalid ha hsup hinv)
    · exact h
  simp [resolve, resolveAxes, hv]

theorem invalid_value_rejected_witness :
    resolve buttonSpec ⟨[("hierarchy", "danger")], false, false⟩ .rest =
      .error .invalidVariantValue :=
  invalid_value_rejected buttonSpec ⟨[("hierarchy", "danger")], false, false⟩
    .rest hierarchyAxis "danger" (by decide) rfl (by decide)

/-- C5: for an axis declared with a default, an omitted caller value
resolves to the declared default (given a configuration on which the other
axes resolve: every supplied value valid and every omitted axis
defaulted): `resolve` succeeds and the default appears among the output
class tokens. -/
theorem omitted_axis_uses_default (spec : VariantSpec) (cfg : ConfigValues)
    (st : InteractionState) (a : Axis) (dv : String)
    (hvalid : ∀ ax ∈ spec.axes, ∀ v,
      lookupCfg cfg.values ax.name = some v → v ∈ ax.values)
    (hdef : ∀ ax ∈ spec.axes,
      lookupCfg cfg.values ax.name = none → ax.default.isSome)
    (ha : a ∈ spec.axes) (hd : a.default = some dv)
    (hmiss : lookupCfg cfg.values a.name = none) :
    ∃ d, resolve spec cfg st = .ok d ∧ dv ∈ d.classes := by
  have hv := validateAxes_ok_of_valid hvalid
  have htotal : ∀ ax ∈ spec.axes, (axisValue ax cfg.values).isSome := by
    intro ax hax
    cases hl : lookupCfg cfg.values ax.name with
    | some w => simp [axisValue, hl]
    | none => simpa [axisValue, hl] using hdef ax hax hl
  obtain ⟨vals, hfill⟩ := fillAxes_ok_of_total htotal
  have hra : resolveAxes spec cfg.values = .ok vals := by
    simp [resolveAxes, hv, hfill]
  refine ⟨⟨dedupFirst (vals.map Prod.snd
      ++ interactionTokens (hierValue vals) cfg st), ariaAttrs cfg st⟩,
    by simp [resolve, hra], ?_⟩
  show dv ∈ dedupFirst (vals.map Prod.snd
    ++ interactionTokens (hierValue vals) cfg st)
  rw [dedupFirst_mem]
  exact List.mem_append.mpr (Or.inl (List.mem_map.mpr
    ⟨(a.name, dv), fillAxes_default_mem hfill ha hmiss hd, rfl⟩))

theorem omitted_axis_uses_default_witness :
    ∃ d, resolve buttonSpec ⟨[], false, false⟩ .rest = .ok d ∧
      "primary" ∈ d.classes :=
  omitted_axis_uses_default buttonSpec ⟨[], false, false⟩ .rest
    hierarchyAxis "primary"
    (fun ax _ v hv => by simp [lookupCfg] at hv)
    (by decide) (by decide) rfl rfl

/-- C6: an ARIA attribute is present in the output exactly when its
triggering condition holds — every emitted attribute is `aria-disabled`
under the disabled condition or `aria-busy` under the loading flag, and
each of those conditions forces its attribute to be present; otherwise the
attribute is absent. -/
theorem aria_only_when_triggered (spec : VariantSpec) (cfg : ConfigValues)
    (st : InteractionState) (d : PresentationDescriptor)
    (hres : resolve spec cfg st = .ok d) :
    (∀ kv ∈ d.aria,
      (kv = ("aria-disabled", "true") ∧ effectiveDisabled cfg st = true) ∨
      (kv = ("aria-busy", "true") ∧ cfg.loading = true)) ∧
    (effectiveDisabled cfg st = true → ("aria-disabled", "true") ∈ d.aria) ∧
    (cfg.loading = true → ("aria-busy", "true") ∈ d.aria) := by
  obtain ⟨vals, _, _, haria⟩ := resolve_ok_inv hres
  rw [haria]
  cases hdis : effectiveDisabled cfg st <;> cases hload : cfg.loading <;>
    simp [ariaAttrs, hdis, hload]

theorem aria_only_when_triggered_witness :
    ("aria-busy", "true") ∈ [("aria-busy", "true")] := by
  have h := aria_only_when_triggered buttonSpec ⟨[], false, true⟩ .rest
    ⟨["primary", "md"], [("aria-busy", "true")]⟩ rfl
  exact h.2.2 rfl

/-- C7: the Button scenario — with the spec
`{hierarchy: [primary, secondary], size: [sm, md]}` and defaults
`{hierarchy: primary, size: md}`: an empty config at rest yields tokens
["primary", "md"] and no ARIA attributes; `{hierarchy: secondary}` at
hover yields ["secondary", "md", "secondary-hover"]; `{disabled: true}` at
hover yields ["primary", "md", "primary-disabled"] with
`aria-disabled="true"` and no hover token. -/
theorem button_scenarios :
    resolve buttonSpec ⟨[], false, false⟩ .rest =
      .ok ⟨["primary", "md"], []⟩ ∧
    resolve buttonSpec ⟨[("hierarchy", "secondary")], false, false⟩ .hover =
      .ok ⟨["secondary", "md", "secondary-hover"], []⟩ ∧
    resolve buttonSpec ⟨[], true, false⟩ .hover =
      .ok ⟨["primary", "md", "primary-disabled"],
           [("aria-disabled", "true")]⟩ :=
  ⟨rfl, rfl, rfl⟩

/-- C8: the base class tokens follow the order in which the axes were
declared in the spec (never the insertion order of the caller-supplied
config), two configs denoting the same axis values give identical output,
and the output class list holds no duplicates. -/
theorem resolve_fixed_order (spec : VariantSpec) (cfg : ConfigValues)
    (st : InteractionState) :
    (∀ vals, resolveAxes spec cfg.values = .ok vals →
      vals.map Prod.fst = spec.axes.map Axis.name) ∧
    (∀ cfg2 : ConfigValues,
      (∀ n ∈ spec.axes.map Axis.name,
        lookupCfg cfg.values n = lookupCfg cfg2.values n) →
      cfg.disabled = cfg2.disabled → cfg.loading = cfg2.loading →
      resolve spec cfg st = resolve spec cfg2 st) ∧
    (∀ d, resolve spec cfg st = .ok d → d.classes.Nodup) := by
  refine ⟨?_, ?_, ?_⟩
  · intro vals hra
    exact fillAxes_ok_names (resolveAxes_ok_inv hra).2
  · intro cfg2 hlook hdis hload
    have hlook2 : ∀ ax ∈ spec.axes,
        lookupCfg cfg.values ax.name = lookupCfg cfg2.values ax.name :=
      fun ax hax => hlook ax.name (List.mem_map_of_mem _ hax)
    have hra : resolveAxes spec cfg.values = resolveAxes spec cfg2.values := by
      simp only [resolveAxes, validateAxes_congr hlook2, fillAxes_congr hlook2]
    simp only [resolve, hra]
    cases resolveAxes spec cfg2.values with
    | error e => rfl
    | ok vals =>
      show Except.ok (PresentationDescriptor.mk
          (dedupFirst (vals.map Prod.snd
            ++ interactionTokens (hierValue vals) cfg st))
          (ariaAttrs cfg st)) =
        Except.ok (PresentationDescriptor.mk
          (dedupFirst (vals.map Prod.snd
            ++ interactionTokens (hierValue vals) cfg2 st))
          (ariaAttrs cfg2 st))
      rw [interactionTokens_congr hdis, ariaAttrs_congr hdis hload]
  · intro d hok
    obtain ⟨vals, _, hcls, _⟩ := resolve_ok_inv hok
    rw [hcls]
    exact dedupFirst_nodup _

theorem resolve_fixed_order_witness :
    ([("hierarchy", "secondary"), ("size", "sm")] :
        List (String × String)).map Prod.fst =
      buttonSpec.axes.map Axis.name ∧
    resolve buttonSpec
        ⟨[("size", "sm"), ("hierarchy", "secondary")], false, false⟩ .rest =
      resolve buttonSpec
        ⟨[("hierarchy", "secondary"), ("size", "sm")], false, false⟩ .rest ∧
    (["secondary", "sm"] : List String).Nodup := by
  have h := resolve_fixed_order buttonSpec
    ⟨[("size", "sm"), ("hierarchy", "secondary")], false, false⟩ .rest
  exact ⟨h.1 [("hierarchy", "secondary"), ("size", "sm")] rfl,
    h.2.1 ⟨[("hierarchy", "secondary"), ("size", "sm")], false, false⟩
      (by decide) rfl rfl,
    h.2.2 ⟨["secondary", "sm"], []⟩ rfl⟩

/-- C9: a declared axis with no default and no caller-supplied value makes
`resolve` fail — it returns an error (no partial or degraded descriptor),
and the error is `MissingAxis` whenever every supplied value is valid. -/
theorem missing_axis_fails (spec : VariantSpec) (cfg : ConfigValues)
    (st : InteractionState) (a : Axis)
    (ha : a ∈ spec.axes) (hnd : a.default = none)
    (hmiss : lookupCfg cfg.values a.name = none) :
    (∃ e, resolve spec cfg st = .error e) ∧
    ((∀ ax ∈ spec.axes, ∀ v,
        lookupCfg cfg.values ax.name = some v → v ∈ ax.values) →
      resolve spec cfg st = .error .missingAxis) := by
  have hfill : fillAxes spec.axes cfg.values = .error .missingAxis := by
    rcases fillAxes_ok_or_missing spec.axes cfg.values with ⟨vals, hok⟩ | herr
    · exact absurd hok (fillAxes_ne_ok_of_missing ha hmiss hnd vals)
    · exact herr
  constructor
  · rcases validateAxes_ok_or_invalid spec.axes cfg.values with hv | hv
    · exact ⟨.missingAxis, by simp [resolve, resolveAxes, hv, hfill]⟩
    · exact ⟨.invalidVariantValue, by simp [resolve, resolveAxes, hv]⟩
  · intro hvalid
    have hv := validateAxes_ok_of_valid hvalid
    simp [resolve, resolveAxes, hv, hfill]

theorem missing_axis_fails_witness :
    (∃ e, resolve toneSpec ⟨[], false, false⟩ .rest = .error e) ∧
    resolve toneSpec ⟨[], false, false⟩ .rest = .error .missingAxis := by
  have h := missing_axis_fails toneSpec ⟨[], false, false⟩ .rest toneAxis
    (by decide) rfl rfl
  exact ⟨h.1, h.2 (fun ax _ v hv => by simp [lookupCfg] at hv)⟩

/-- C10: in the ButtonComponent reference implementation, `disabled` feeds
only the `aria-disabled` binding and the computed classes — the native
`disabled` attribute of the button element is never bound, so the rendered
button stays natively clickable and `buttonClick` can still fire while
`disabled` is true. -/
theorem native_disabled_unbound (c : ButtonComponent) :
    lookupCfg (renderButton c).attrs "disabled" = none ∧
    clickFires (renderButton { c with disabled := true }) = true ∧
    lookupCfg (renderButton { c with disabled := true }).attrs
      "aria-disabled" = some "true" ∧
    (renderButton { c with disabled := true }).attrs.map Prod.fst =
      ["aria-disabled"] ∧
    (renderButton { c with disabled := true }).classes =
      getClasses { c with disabled := true } :=
  ⟨rfl, rfl, rfl, rfl, rfl⟩

end DsAi
